import Mathlib

/-!
Shallow embedding of the `simple_json_parser` crate (`src/lib.rs`): a
single-pass, event-driven JSON lexical parser.  The Rust code walks
`on'.char_indices()`, so the input is modelled as a `List Char` together with a
running byte offset advanced by `Char.utf8Size`.  Rust states store a `start`
byte offset and later slice `&on'[start..idx]`; here each such state instead
carries `acc`, the exact list of characters of that slice, which grows by one
character per consumed character.  The `FnMut` callback is modelled by a pure
stop-signal `stop : List JSONKey → RootJSONValue → Bool` plus an explicit
trace of callback invocations (key path, value) returned alongside the result,
in invocation order.
-/

namespace SimpleJson

/-- Unicode White_Space code points, as matched by Rust `char::is_whitespace`. -/
def is_whitespace (c : Char) : Bool :=
  c.toNat ∈ [0x09, 0x0A, 0x0B, 0x0C, 0x0D, 0x20, 0x85, 0xA0, 0x1680,
    0x2000, 0x2001, 0x2002, 0x2003, 0x2004, 0x2005, 0x2006, 0x2007, 0x2008,
    0x2009, 0x200A, 0x2028, 0x2029, 0x202F, 0x205F, 0x3000]

/-- Keys of the path from the document root: `JSONKey` in the source. -/
inductive JSONKey where
  | Slice : List Char → JSONKey
  | Index : Nat → JSONKey
deriving DecidableEq, Repr

/-- Scalar values handed to the callback: `RootJSONValue` in the source. -/
inductive RootJSONValue where
  | String : List Char → RootJSONValue
  | Number : List Char → RootJSONValue
  | Boolean : Bool → RootJSONValue
  | Null : RootJSONValue
deriving DecidableEq, Repr

/-- Failure reasons: `JSONParseErrorReason` in the source. -/
inductive JSONParseErrorReason where
  | ExpectedColon
  | ExpectedEndOfValue
  | ExpectedBracket
  | ExpectedTrueFalseNull
  | ExpectedKey
  | ExpectedValue
  | ExpectedEndOfMultilineComment
  | ExpectedQuote
deriving DecidableEq, Repr

/-- Parse error: byte offset (`at` in the source) plus reason. -/
structure JSONParseError where
  at' : Nat
  reason : JSONParseErrorReason
deriving DecidableEq, Repr

/-- Options of the configurable entry point: `ParseOptions` in the source. -/
structure ParseOptions where
  exit_on_first_value : Bool
  allow_comments : Bool
deriving DecidableEq, Repr

/-- Machine states (`enum State` in the source).  The `start` byte offsets of
`InKey`/`StringValue`/`NumberValue` are replaced by the accumulated slice
characters `acc`; `TrueFalseNull` keeps `start` because the source computes
`diff = idx - start + 1` in bytes, and additionally carries `acc` for the
slice `&on'[start..idx + chr.len_utf8()]` it compares against literals. -/
inductive State where
  | InKey (escaped : Bool) (acc : List Char)
  | Colon
  | InObject
  | Comment (start : Nat) (multiline : Bool) (last_was_asterisk : Bool) (hash : Bool)
  | ExpectingValue
  | StringValue (escaped : Bool) (acc : List Char)
  | NumberValue (acc : List Char)
  | TrueFalseNull (start : Nat) (acc : List Char)
  | EndOfValue
deriving DecidableEq, Repr

/-- One callback invocation: the key path (root to leaf, as the Rust callback
sees `&key_chain`) and the emitted scalar. -/
abbrev Ev := List JSONKey × RootJSONValue

/-- Test whether the top of the key chain (`key_chain.last()` in the source,
the head in this reversed representation) is a `Slice` entry. -/
def topIsSlice : List JSONKey → Bool
  | .Slice _ :: _ => true
  | _ => false

/-- Test whether the top of the key chain is an `Index` entry. -/
def topIsIndex : List JSONKey → Bool
  | .Index _ :: _ => true
  | _ => false

/-- Transition at the end of a value (`end_of_value` in the source).  The Rust
`Vec` key chain is represented reversed: the list head is the vector's last
element, so `push` is cons, `pop` is `tail`, `last_mut` looks at the head. -/
def end_of_value (idx : Nat) (chr : Char) (state : State)
    (key_chain : List JSONKey) (allow_comments : Bool) :
    Except JSONParseError (State × List JSONKey) :=
  if chr = ',' then
    match key_chain with
    | .Index i :: rest => .ok (.ExpectingValue, .Index (i + 1) :: rest)
    | _ => .ok (.InObject, key_chain.tail)
  else if chr = '}' ∧ topIsSlice key_chain = true then
    .ok (state, key_chain.tail)
  else if chr = ']' ∧ topIsIndex key_chain = true then
    .ok (state, key_chain.tail)
  else if allow_comments = true ∧ (chr = '/' ∨ chr = '#') then
    .ok (.Comment idx false false (chr == '#'), key_chain.tail)
  else if is_whitespace chr = false then
    .error ⟨idx, .ExpectedEndOfValue⟩
  else
    .ok (state, key_chain)

/-- Machine configuration threaded through the scan loop: current state, the
key chain (reversed Rust `Vec`), and the trace of callback invocations so
far. -/
structure Config where
  state : State
  key_chain : List JSONKey
  events : List Ev
deriving DecidableEq, Repr

/-- Result of processing one character: either the next configuration, or an
early return (trace so far, `Ok` offset or error) from the parse function. -/
abbrev StepResult := Config ⊕ (List Ev × Except JSONParseError Nat)

/-- One iteration of the `for (idx, chr) in chars` loop of
`parse_with_exit_signal`, at byte offset `idx` reading character `chr`. -/
def step (options : ParseOptions) (stop : List JSONKey → RootJSONValue → Bool)
    (idx : Nat) (chr : Char) (cfg : Config) : StepResult :=
  match cfg with
  | ⟨st, key_chain, events⟩ =>
    match st with
    | .InKey escaped acc =>
      if escaped = false ∧ chr = '"' then
        .inl ⟨.Colon, .Slice acc :: key_chain, events⟩
      else
        .inl ⟨.InKey (chr == '\\') (acc ++ [chr]), key_chain, events⟩
    | .StringValue escaped acc =>
      if escaped = false ∧ chr = '"' then
        if stop key_chain.reverse (.String acc) = true then
          (.inr (events ++ [(key_chain.reverse, .String acc)],
            .ok (idx + chr.utf8Size)))
        else
          .inl ⟨.EndOfValue, key_chain, events ++ [(key_chain.reverse, .String acc)]⟩
      else
        .inl ⟨.StringValue (chr == '\\') (acc ++ [chr]), key_chain, events⟩
    | .Colon =>
      if chr = ':' then
        .inl ⟨.ExpectingValue, key_chain, events⟩
      else if is_whitespace chr = false then
        .inr (events, .error ⟨idx, .ExpectedColon⟩)
      else
        .inl ⟨.Colon, key_chain, events⟩
    | .EndOfValue =>
      match end_of_value idx chr .EndOfValue key_chain options.allow_comments with
      | .error e => .inr (events, .error e)
      | .ok (st2, kc2) =>
        if options.exit_on_first_value = true ∧ kc2 = [] ∧ chr ≠ ',' then
          .inr (events, .ok (idx + chr.utf8Size))
        else
          .inl ⟨st2, kc2, events⟩
    | .Comment start multiline last_was_asterisk hash =>
      if chr = '\n' ∧ multiline = false then
        match key_chain with
        | .Index _ :: _ => .inl ⟨.ExpectingValue, key_chain, events⟩
        | _ => .inl ⟨.InObject, key_chain, events⟩
      else if chr = '*' ∧ start + 1 = idx ∧ hash = false then
        .inl ⟨.Comment start true last_was_asterisk hash, key_chain, events⟩
      else if multiline = true then
        if last_was_asterisk = true ∧ chr = '/' then
          match key_chain with
          | .Index _ :: _ => .inl ⟨.ExpectingValue, key_chain, events⟩
          | _ => .inl ⟨.InObject, key_chain, events⟩
        else
          .inl ⟨.Comment start multiline (chr == '*') hash, key_chain, events⟩
      else
        .inl ⟨.Comment start multiline last_was_asterisk hash, key_chain, events⟩
    | .ExpectingValue =>
      if chr = '{' then
        .inl ⟨.InObject, key_chain, events⟩
      else if chr = '[' then
        .inl ⟨.ExpectingValue, .Index 0 :: key_chain, events⟩
      else if chr = '"' then
        .inl ⟨.StringValue false [], key_chain, events⟩
      else if (chr = '/' ∨ chr = '#') ∧ options.allow_comments = true then
        .inl ⟨.Comment idx false false (chr == '#'), key_chain, events⟩
      else if (48 ≤ chr.toNat ∧ chr.toNat ≤ 57) ∨ chr = '-' then
        .inl ⟨.NumberValue [chr], key_chain, events⟩
      else if chr = 't' ∨ chr = 'f' ∨ chr = 'n' then
        .inl ⟨.TrueFalseNull idx [chr], key_chain, events⟩
      else if is_whitespace chr = true then
        .inl ⟨.ExpectingValue, key_chain, events⟩
      else
        .inr (events, .error ⟨idx, .ExpectedValue⟩)
    | .InObject =>
      if chr = '"' then
        .inl ⟨.InKey false [], key_chain, events⟩
      else if chr = '}' then
        match key_chain with
        | .Index _ :: _ => .inl ⟨.ExpectingValue, key_chain, events⟩
        | _ => .inl ⟨.InObject, key_chain, events⟩
      else if options.allow_comments = true ∧ (chr = '/' ∨ chr = '#') then
        .inl ⟨.Comment idx false false (chr == '#'), key_chain, events⟩
      else if is_whitespace chr = false then
        .inr (events, .error ⟨idx, .ExpectedKey⟩)
      else
        .inl ⟨.InObject, key_chain, events⟩
    | .NumberValue acc =>
      if is_whitespace chr = true ∨ chr = '}' ∨ chr = ',' ∨ chr = ']' then
        if stop key_chain.reverse (.Number acc) = true then
          .inr (events ++ [(key_chain.reverse, .Number acc)], .ok idx)
        else
          match end_of_value idx chr .EndOfValue key_chain options.allow_comments with
          | .error e => .inr (events ++ [(key_chain.reverse, .Number acc)], .error e)
          | .ok (st2, kc2) =>
            .inl ⟨st2, kc2, events ++ [(key_chain.reverse, .Number acc)]⟩
      else
        .inl ⟨.NumberValue (acc ++ [chr]), key_chain, events⟩
    | .TrueFalseNull start acc =>
      if idx - start + 1 < 4 then
        .inl ⟨.TrueFalseNull start (acc ++ [chr]), key_chain, events⟩
      else if idx - start + 1 = 4 then
        if acc ++ [chr] = ['t', 'r', 'u', 'e'] then
          if stop key_chain.reverse (.Boolean true) = true then
            .inr (events ++ [(key_chain.reverse, .Boolean true)], .ok (idx + chr.utf8Size))
          else
            .inl ⟨.EndOfValue, key_chain, events ++ [(key_chain.reverse, .Boolean true)]⟩
        else if acc ++ [chr] = ['n', 'u', 'l', 'l'] then
          if stop key_chain.reverse .Null = true then
            .inr (events ++ [(key_chain.reverse, .Null)], .ok (idx + chr.utf8Size))
          else
            .inl ⟨.EndOfValue, key_chain, events ++ [(key_chain.reverse, .Null)]⟩
        else if acc ++ [chr] = ['f', 'a', 'l', 's'] then
          .inl ⟨.TrueFalseNull start (acc ++ [chr]), key_chain, events⟩
        else
          .inr (events, .error ⟨idx, .ExpectedTrueFalseNull⟩)
      else if acc ++ [chr] = ['f', 'a', 'l', 's', 'e'] then
        if stop key_chain.reverse (.Boolean false) = true then
          .inr (events ++ [(key_chain.reverse, .Boolean false)], .ok (idx + chr.utf8Size))
        else
          .inl ⟨.EndOfValue, key_chain, events ++ [(key_chain.reverse, .Boolean false)]⟩
      else
        .inr (events, .error ⟨idx, .ExpectedTrueFalseNull⟩)

/-- End-of-input finalization (the `match state` after the loop in
`parse_with_exit_signal`); `totalLen` is `on'.len()`.  A trailing number is
emitted with the callback's result discarded (`let _result = cb(...)`). -/
def finalize (totalLen : Nat) (cfg : Config) : List Ev × Except JSONParseError Nat :=
  match cfg with
  | ⟨st, key_chain, events⟩ =>
    match st with
    | .InKey _ _ => (events, .error ⟨totalLen, .ExpectedQuote⟩)
    | .StringValue _ _ => (events, .error ⟨totalLen, .ExpectedQuote⟩)
    | .Colon => (events, .error ⟨totalLen, .ExpectedColon⟩)
    | .Comment _ multiline _ _ =>
      if multiline = true then
        (events, .error ⟨totalLen, .ExpectedEndOfMultilineComment⟩)
      else
        (events, .ok totalLen)
    | .EndOfValue =>
      if key_chain = [] then (events, .ok totalLen)
      else (events, .error ⟨totalLen, .ExpectedBracket⟩)
    | .ExpectingValue =>
      if key_chain = [] then (events, .ok totalLen)
      else (events, .error ⟨totalLen, .ExpectedBracket⟩)
    | .InObject => (events, .error ⟨totalLen, .ExpectedBracket⟩)
    | .NumberValue acc =>
      (events ++ [(key_chain.reverse, .Number acc)], .ok totalLen)
    | .TrueFalseNull _ _ => (events, .error ⟨totalLen, .ExpectedTrueFalseNull⟩)

/-- The scan loop of `parse_with_exit_signal` from byte offset `idx` in
configuration `cfg`, over the remaining characters. -/
def runFrom (options : ParseOptions) (stop : List JSONKey → RootJSONValue → Bool) :
    List Char → Nat → Config → List Ev × Except JSONParseError Nat
  | [], idx, cfg => finalize idx cfg
  | chr :: rest, idx, cfg =>
    match step options stop idx chr cfg with
    | .inl cfg2 => runFrom options stop rest (idx + chr.utf8Size) cfg2
    | .inr out => out

/-- Configurable entry point `parse_with_exit_signal`: returns the trace of
callback invocations and either the number of bytes parsed or an error. -/
def parse_with_exit_signal (on' : List Char)
    (stop : List JSONKey → RootJSONValue → Bool) (options : ParseOptions) :
    List Ev × Except JSONParseError Nat :=
  runFrom options stop on' 0 ⟨.ExpectingValue, [], []⟩

/-- Simple entry point `parse`: wraps the callback to always return `false`
and passes `ParseOptions::default()`, i.e. both options off. -/
def parse (on' : List Char) : List Ev × Except JSONParseError Nat :=
  parse_with_exit_signal on' (fun _ _ => false) ⟨false, false⟩

/-- Inner character loop of `key_chain_equals` for a `Slice`/`Slice` pair:
iterates the expected pattern's characters, consuming the key's characters and
skipping a backslash in the key before each comparison. -/
def sliceMatch : List Char → List Char → Bool
  | [], _ => true
  | _ :: _, [] => false
  | e :: es, k :: ks =>
    if k = '\\' then
      match ks with
      | [] => false
      | k2 :: ks2 => if e = k2 then sliceMatch es ks2 else false
    else if e = k then sliceMatch es ks else false

/-- Escape-aware key-chain comparison (`key_chain_equals` in the source),
on' root-to-leaf key paths as the callback receives them. -/
def key_chain_equals (keys expected : List JSONKey) : Bool :=
  if keys.length = expected.length then
    (List.zip expected keys).all fun p =>
      match p with
      | (.Slice e, .Slice k) => sliceMatch e k
      | (.Index e, .Index k) => e == k
      | (_, _) => false
  else
    false

/-- Model of `Cow<str>`: the content plus whether it is still `Borrowed`
(a non-copied view into the original buffer). -/
abbrev CowStr := List Char × Bool

/-- The std `AddAssign<&str> for Cow<str>` used by `unescape_string_content`:
an empty left side becomes `Borrowed(rhs)`, appending an empty right side is a
no-op, and any other append converts to `Owned`. -/
def cowAddAssign (self : CowStr) (rhs : List Char) : CowStr :=
  if self.1 = [] then (rhs, true)
  else if rhs = [] then self
  else (self.1 ++ rhs, false)

/-- Loop of `unescape_string_content` over `on'.match_indices('\\')`: `seg` is
the text between the previous split point (`start` in the source) and the
position reached so far. -/
def unescapeGo (result : CowStr) (seg : List Char) : List Char → CowStr
  | [] => cowAddAssign result seg
  | c :: cs =>
    if c = '\\' then unescapeGo (cowAddAssign result seg) [] cs
    else unescapeGo result (seg ++ [c]) cs

/-- Backslash-removing unescape (`unescape_string_content` in the source). -/
def unescape_string_content (on' : List Char) : CowStr :=
  unescapeGo ([], true) [] on'

/-- Byte length of a character list (`str::len` of the corresponding text). -/
def blen (l : List Char) : Nat := (l.map Char.utf8Size).sum

/-- Suffix of the buffer from byte offset `n` (`&source[n..]`). -/
def byteDrop : Nat → List Char → List Char
  | 0, l => l
  | _ + 1, [] => []
  | n + 1, c :: cs => byteDrop (n + 1 - c.utf8Size) cs

/-- Modelled from the spec, for claim C3 only: the spec says the simple entry
point "internally always disables early exit and enables comment tolerance",
i.e. it would call `parse_with_exit_signal` with the callback wrapped to
always return `false` and options `(exit_on_first_value := false,
allow_comments := true)`. -/
def parseSpecC3 (on' : List Char) : List Ev × Except JSONParseError Nat :=
  parse_with_exit_signal on' (fun _ _ => false) ⟨false, true⟩

/-- Possible evolutions of the key chain across one accepted scan step: it is
unchanged, one entry is pushed, the top entry is popped, or a top `Index`
entry is incremented in place. -/
def stackStep (kc kc2 : List JSONKey) : Prop :=
  kc2 = kc ∨ (∃ k, kc2 = k :: kc) ∨ kc2 = kc.tail ∨
    (∃ i t, kc = .Index i :: t ∧ kc2 = .Index (i + 1) :: t)

/-- Count of open minus closed brackets in a character prefix (the spec's
"currently-open `{`/`[` that have not been closed", adequate for prefixes
containing no string literals or comments). -/
def bracketBalance (l : List Char) : Int :=
  l.foldl
    (fun n c =>
      if c = '{' ∨ c = '[' then n + 1
      else if c = '}' ∨ c = ']' then n - 1
      else n)
    0

/-- Scalar leaves of a JSON document tree. -/
inductive JScalar where
  | string : List Char → JScalar
  | number : List Char → JScalar
  | boolean : Bool → JScalar
  | null : JScalar

/-! Well-formed JSON document trees whose leaves are scalars.  Objects and
arrays are nonempty by construction: the parser under study rejects `{}` and
`[]` (their closers are never consumed as such), and a document all of whose
leaves are scalars has no empty composite. -/
mutual
inductive JDoc where
  | scalar : JScalar → JDoc
  | object : JMembers → JDoc
  | array : JElements → JDoc
inductive JMembers where
  | single : List Char → JDoc → JMembers
  | cons : List Char → JDoc → JMembers → JMembers
inductive JElements where
  | single : JDoc → JElements
  | cons : JDoc → JElements → JElements
end

/-- Canonical serialization of a scalar. -/
def serScalar : JScalar → List Char
  | .string s => '"' :: s ++ ['"']
  | .number n => n
  | .boolean true => ['t', 'r', 'u', 'e']
  | .boolean false => ['f', 'a', 'l', 's', 'e']
  | .null => ['n', 'u', 'l', 'l']

/-! Canonical (whitespace-free) serialization of a document tree. -/
mutual
def ser : JDoc → List Char
  | .scalar s => serScalar s
  | .object ms => '{' :: (serMembers ms ++ ['}'])
  | .array es => '[' :: (serElements es ++ [']'])
def serMembers : JMembers → List Char
  | .single k v => '"' :: (k ++ '"' :: ':' :: ser v)
  | .cons k v rest => '"' :: (k ++ '"' :: ':' :: ser v ++ ',' :: serMembers rest)
def serElements : JElements → List Char
  | .single v => ser v
  | .cons v rest => ser v ++ ',' :: serElements rest
end

/-- The callback value corresponding to a scalar leaf. -/
def valOf : JScalar → RootJSONValue
  | .string s => .String s
  | .number n => .Number n
  | .boolean b => .Boolean b
  | .null => .Null

/-! Leaf scalars of a document in depth-first, left-to-right document order,
each with its root-to-leaf key path (`path` is the path of the document root;
array elements are numbered from `i`). -/
mutual
def leaves (path : List JSONKey) : JDoc → List Ev
  | .scalar s => [(path, valOf s)]
  | .object ms => leavesM path ms
  | .array es => leavesE path 0 es
def leavesM (path : List JSONKey) : JMembers → List Ev
  | .single k v => leaves (path ++ [.Slice k]) v
  | .cons k v rest => leaves (path ++ [.Slice k]) v ++ leavesM path rest
def leavesE (path : List JSONKey) (i : Nat) : JElements → List Ev
  | .single v => leaves (path ++ [.Index i]) v
  | .cons v rest => leaves (path ++ [.Index i]) v ++ leavesE path (i + 1) rest
end

/-- Whether string content scans cleanly inside quotes starting from escape
flag `escaped`: no unescaped `"` occurs, and the final escape flag is off (so
the closing quote terminates the string). -/
def okStr : List Char → Bool → Bool
  | [], escaped => !escaped
  | c :: cs, escaped =>
    if escaped = false ∧ c = '"' then false else okStr cs (c == '\\')

/-- Whether a character keeps the machine inside a number token: neither
whitespace nor one of the delimiters `}` `,` `]`. -/
def numCharOk (c : Char) : Bool :=
  !is_whitespace c && !(c == '}') && !(c == ',') && !(c == ']')

/-- Well-formedness of a scalar for the canonical serialization: string
content scans cleanly; a number is nonempty, starts with a digit or `-` and
continues with non-delimiter characters (no numeric validation, matching the
parser). -/
def wfScalar : JScalar → Bool
  | .string s => okStr s false
  | .number [] => false
  | .number (c :: cs) =>
    decide ((48 ≤ c.toNat ∧ c.toNat ≤ 57) ∨ c = '-') && cs.all numCharOk
  | .boolean _ => true
  | .null => true

/-! Well-formedness of documents: every scalar is well formed and every object
key scans cleanly. -/
mutual
def wfDoc : JDoc → Bool
  | .scalar s => wfScalar s
  | .object ms => wfMembers ms
  | .array es => wfElements es
def wfMembers : JMembers → Bool
  | .single k v => okStr k false && wfDoc v
  | .cons k v rest => okStr k false && wfDoc v && wfMembers rest
def wfElements : JElements → Bool
  | .single v => wfDoc v
  | .cons v rest => wfDoc v && wfElements rest
end

/-- State of the machine immediately after consuming a value's serialization:
numbers have no closing delimiter, so a number is still being scanned; every
other value has been completed. -/
def postOf : JDoc → State
  | .scalar (.number n) => .NumberValue n
  | _ => .EndOfValue

/-- The single callback invocation still pending right after a value's
serialization has been consumed: the value itself when it is a number
(emitted only at the next delimiter or end of input), nothing otherwise. -/
def pendingOf (path : List JSONKey) : JDoc → List Ev
  | .scalar (.number n) => [(path, .Number n)]
  | _ => []

/-- Callback invocations already performed once a value's serialization has
been consumed: all its leaves except a pending top-level number. -/
def emitsOf (path : List JSONKey) (t : JDoc) : List Ev :=
  match t with
  | .scalar (.number _) => []
  | _ => leaves path t

/-- Callback invocations already performed once an object body has been
consumed (the last member's value may still be pending). -/
def emitsM (path : List JSONKey) : JMembers → List Ev
  | .single k v => emitsOf (path ++ [.Slice k]) v
  | .cons k v rest => leaves (path ++ [.Slice k]) v ++ emitsM path rest

/-- Callback invocations already performed once an array body has been
consumed, elements numbered from `i`. -/
def emitsE (path : List JSONKey) (i : Nat) : JElements → List Ev
  | .single v => emitsOf (path ++ [.Index i]) v
  | .cons v rest => leaves (path ++ [.Index i]) v ++ emitsE path (i + 1) rest

/-- Key of the last member of an object body. -/
def lastKeyM : JMembers → List Char
  | .single k _ => k
  | .cons _ _ rest => lastKeyM rest

/-- Value of the last member of an object body. -/
def lastValM : JMembers → JDoc
  | .single _ v => v
  | .cons _ _ rest => lastValM rest

/-- Last element of an array body. -/
def lastValE : JElements → JDoc
  | .single v => v
  | .cons _ rest => lastValE rest

/-- Index of the last element of an array body when numbering starts at `i`. -/
def finalIdxE (i : Nat) : JElements → Nat
  | .single _ => i
  | .cons _ rest => finalIdxE (i + 1) rest

/-- Concrete document `{"a":1,"b":"x"}` used as a witness input. -/
def c1doc : JDoc :=
  .object (.cons ['a'] (.scalar (.number ['1']))
    (.single ['b'] (.scalar (.string ['x']))))

/-! Helper lemmas about the unescaping utility. -/

theorem cowAddAssign_fst (r : CowStr) (s : List Char) :
    (cowAddAssign r s).1 = r.1 ++ s := by
  unfold cowAddAssign
  split
  · simp_all
  · split
    · simp_all
    · rfl

theorem unescapeGo_fst (l : List Char) : ∀ r seg,
    (unescapeGo r seg l).1 = r.1 ++ seg ++ l.filter (fun c => !(c == '\\')) := by
  induction l with
  | nil => intro r seg; simp [unescapeGo, cowAddAssign_fst]
  | cons c cs ih =>
    intro r seg
    by_cases hc : c = '\\'
    · subst hc
      simp [unescapeGo, ih, cowAddAssign_fst]
    · simp [unescapeGo, hc, ih]

theorem unescapeGo_noBackslash (l : List Char) : ∀ seg, (∀ c ∈ l, c ≠ '\\') →
    unescapeGo ([], true) seg l = (seg ++ l, true) := by
  induction l with
  | nil => intro seg _; simp [unescapeGo, cowAddAssign]
  | cons c cs ih =>
    intro seg h
    have hc : c ≠ '\\' := h c (by simp)
    rw [unescapeGo, if_neg hc, ih (seg ++ [c]) (fun d hd => h d (by simp [hd]))]
    simp

/-- C5: `unescape_string_content` removes every backslash while keeping all
other characters in order (backslash-removal only, no escape decoding); an
input containing no backslash is returned as a borrowed (non-copied) view
equal to the input; and `Something with \"quotes\"` unescapes to
`Something with "quotes"` (as an owned copy). -/
theorem c5_unescape_string_content :
    (∀ l : List Char,
      (unescape_string_content l).1 = l.filter (fun c => !(c == '\\'))) ∧
    (∀ l : List Char, (∀ c ∈ l, c ≠ '\\') → unescape_string_content l = (l, true)) ∧
    unescape_string_content ("Something with \\\"quotes\\\"").toList
      = (("Something with \"quotes\"").toList, false) := by
  refine ⟨?_, ?_, ?_⟩
  · intro l
    simpa using unescapeGo_fst l ([], true) []
  · intro l h
    simpa using unescapeGo_noBackslash l [] h
  · rfl

/-- C5 witness: a concrete backslash-free input is returned borrowed and
unchanged. -/
theorem c5_unescape_string_content_witness :
    unescape_string_content ['N', 'o'] = (['N', 'o'], true) :=
  c5_unescape_string_content.2.1 ['N', 'o'] (by decide)

/-! Helper lemmas about `key_chain_equals`. -/

theorem kce_len_ne (ks es : List JSONKey) (h : ks.length ≠ es.length) :
    key_chain_equals ks es = false := by
  simp [key_chain_equals, h]

theorem kce_slice_vs_index : ∀ (ks es : List JSONKey) (i : Nat) (s : List Char) (n : Nat),
    ks.get? i = some (.Slice s) → es.get? i = some (.Index n) →
    key_chain_equals ks es = false := by
  intro ks
  induction ks with
  | nil => intro es i s n h1 _; simp at h1
  | cons k ks ih =>
    intro es i s n h1 h2
    cases es with
    | nil => simp at h2
    | cons e es2 =>
      by_cases hlen : (k :: ks).length = (e :: es2).length
      · cases i with
        | zero =>
          simp at h1 h2
          subst h1; subst h2
          simp [key_chain_equals, hlen]
        | succ j =>
          have hlen2 : ks.length = es2.length := by simpa using hlen
          have h3 := ih es2 j s n (by simpa using h1) (by simpa using h2)
          simp [key_chain_equals, hlen2] at h3
          simp [key_chain_equals, hlen, h3]
      · exact kce_len_ne _ _ hlen

theorem kce_index_vs_slice : ∀ (ks es : List JSONKey) (i : Nat) (n : Nat) (s : List Char),
    ks.get? i = some (.Index n) → es.get? i = some (.Slice s) →
    key_chain_equals ks es = false := by
  intro ks
  induction ks with
  | nil => intro es i n s h1 _; simp at h1
  | cons k ks ih =>
    intro es i n s h1 h2
    cases es with
    | nil => simp at h2
    | cons e es2 =>
      by_cases hlen : (k :: ks).length = (e :: es2).length
      · cases i with
        | zero =>
          simp at h1 h2
          subst h1; subst h2
          simp [key_chain_equals, hlen]
        | succ j =>
          have hlen2 : ks.length = es2.length := by simpa using hlen
          have h3 := ih es2 j n s (by simpa using h1) (by simpa using h2)
          simp [key_chain_equals, hlen2] at h3
          simp [key_chain_equals, hlen, h3]
      · exact kce_len_ne _ _ hlen

theorem kce_index_chains : ∀ ns ms : List Nat,
    key_chain_equals (ns.map .Index) (ms.map .Index) = decide (ns = ms) := by
  intro ns
  induction ns with
  | nil =>
    intro ms
    cases ms with
    | nil => rfl
    | cons m ms2 => simp [key_chain_equals]
  | cons n ns ih =>
    intro ms
    cases ms with
    | nil => simp [key_chain_equals]
    | cons m ms2 =>
      by_cases hlen : ns.length = ms2.length
      · have h3 := ih ms2
        simp [key_chain_equals, hlen] at h3
        by_cases hnm : n = m
        · subst hnm
          simp [key_chain_equals, hlen, h3]
        · have hne : n :: ns ≠ m :: ms2 := by
            intro hh; exact hnm (by injection hh)
          have hmn : (m == n) = false := by
            simp
            exact fun hh => hnm hh.symm
          simp [key_chain_equals, hlen, hmn, hne]
      · have hl2 : ((n :: ns).map JSONKey.Index).length
            ≠ ((m :: ms2).map JSONKey.Index).length := by
          simp [hlen]
        rw [kce_len_ne _ _ hl2]
        have : n :: ns ≠ m :: ms2 := by
          intro hh
          injection hh with _ h2
          exact hlen (by rw [h2])
        simp [this]

/-- C6: `key_chain_equals` rejects paths of different lengths and any position
pairing a `Slice` with an `Index` (either order); `Index` entries compare by
numeric equality; and a `Slice` key is compared with each backslash skipped
before the following character, so key `q\"` equals expected `q"` and differs
from expected `b\"`. -/
theorem c6_key_chain_equals :
    (∀ ks es : List JSONKey, ks.length ≠ es.length → key_chain_equals ks es = false) ∧
    (∀ (ks es : List JSONKey) (i : Nat) (s : List Char) (n : Nat),
      ks.get? i = some (.Slice s) → es.get? i = some (.Index n) →
      key_chain_equals ks es = false) ∧
    (∀ (ks es : List JSONKey) (i : Nat) (n : Nat) (s : List Char),
      ks.get? i = some (.Index n) → es.get? i = some (.Slice s) →
      key_chain_equals ks es = false) ∧
    (∀ ns ms : List Nat,
      key_chain_equals (ns.map .Index) (ms.map .Index) = decide (ns = ms)) ∧
    key_chain_equals [.Slice ['q', '\\', '"']] [.Slice ['q', '"']] = true ∧
    key_chain_equals [.Slice ['q', '\\', '"']] [.Slice ['b', '\\', '"']] = false :=
  ⟨kce_len_ne, kce_slice_vs_index, kce_index_vs_slice, kce_index_chains, rfl, rfl⟩

/-- C6 witness: the length test applied at a concrete unequal-length pair. -/
theorem c6_key_chain_equals_witness :
    key_chain_equals [.Index 0] ([] : List JSONKey) = false :=
  c6_key_chain_equals.1 [.Index 0] [] (by decide)

/-- C10: the `Slice` comparison loop consumes key characters only while
expected-pattern characters remain and never requires the key to be fully
consumed, so an expected `Slice` that is a strict unescaped prefix of the key
(`q` against key `qx`) is judged equal. -/
theorem c10_slice_prefix_matches :
    key_chain_equals [.Slice ['q', 'x']] [.Slice ['q']] = true := rfl

/-- C7: `{"a": tru}` fails with `ExpectedTrueFalseNull` at offset 9, the
fourth character of the literal token starting at offset 6; `{"a": "b` fails
with `ExpectedQuote` at offset 8, which is the input's byte length
(end of input). -/
theorem c7_malformed_inputs :
    parse_with_exit_signal ['{', '"', 'a', '"', ':', ' ', 't', 'r', 'u', '}']
        (fun _ _ => false) ⟨false, false⟩
      = ([], .error ⟨9, .ExpectedTrueFalseNull⟩) ∧
    parse_with_exit_signal ['{', '"', 'a', '"', ':', ' ', '"', 'b']
        (fun _ _ => false) ⟨false, false⟩
      = ([], .error ⟨8, .ExpectedQuote⟩) ∧
    blen ['{', '"', 'a', '"', ':', ' ', '"', 'b'] = 8 :=
  ⟨rfl, rfl, rfl⟩

/-- C4 counterexample: in the between-values state with comments enabled, a
`/` with an `Index` entry on top of the key-path stack pops the entry, whereas
a comma at the same point increments it and keeps it. -/
theorem c4_counterexample :
    end_of_value 5 '/' .EndOfValue [.Index 0] true
      = .ok (.Comment 5 false false false, []) ∧
    end_of_value 5 ',' .EndOfValue [.Index 0] true
      = .ok (.ExpectingValue, [.Index 1]) :=
  ⟨rfl, rfl⟩

/-- C4 (amended): on `/` or `#` with comments enabled, `end_of_value` enters
comment scanning after unconditionally popping the top key-path entry: inside
an object the finished key is popped as a comma would pop it, but inside an
array the top `Index` entry is popped as well (not incremented as a comma
would). -/
theorem c4_comment_pops_unconditionally
    (idx : Nat) (chr : Char) (st : State) (kc : List JSONKey)
    (h : chr = '/' ∨ chr = '#') :
    end_of_value idx chr st kc true
      = .ok (.Comment idx false false (chr == '#'), kc.tail) := by
  rcases h with rfl | rfl <;> rfl

/-- C4 witness: the amended transition applied at a concrete `#` after an
array element. -/
theorem c4_comment_pops_witness :
    end_of_value 0 '#' .EndOfValue [.Index 0] true
      = .ok (.Comment 0 false false true, []) :=
  c4_comment_pops_unconditionally 0 '#' .EndOfValue [.Index 0] (Or.inr rfl)

/-- C2: when the callback signals stop, a completed string value returns `Ok`
just past the closing quote; a number returns `Ok` at the offset of the still
unconsumed delimiter; a `true` literal returns just past its final character;
and on `{"a":1,"b":2}` with a callback that stops at the first value the
returned offset 6 is that of the comma after `1`, and the buffer suffix from
that offset is `,"b":2}`. -/
theorem c2_early_exit_offsets :
    (∀ (options : ParseOptions) (stop : List JSONKey → RootJSONValue → Bool)
        (idx : Nat) (acc : List Char) (kc : List JSONKey) (evs : List Ev),
      stop kc.reverse (.String acc) = true →
      step options stop idx '"' ⟨.StringValue false acc, kc, evs⟩
        = .inr (evs ++ [(kc.reverse, .String acc)], .ok (idx + 1))) ∧
    (∀ (options : ParseOptions) (stop : List JSONKey → RootJSONValue → Bool)
        (idx : Nat) (acc : List Char) (kc : List JSONKey) (evs : List Ev)
        (chr : Char),
      chr = ',' ∨ chr = '}' ∨ chr = ']' ∨ is_whitespace chr = true →
      stop kc.reverse (.Number acc) = true →
      step options stop idx chr ⟨.NumberValue acc, kc, evs⟩
        = .inr (evs ++ [(kc.reverse, .Number acc)], .ok idx)) ∧
    parse_with_exit_signal ['t', 'r', 'u', 'e', ' '] (fun _ _ => true) ⟨false, false⟩
      = ([([], .Boolean true)], .ok 4) ∧
    parse_with_exit_signal ['{', '"', 'a', '"', ':', '1', ',', '"', 'b', '"', ':', '2', '}']
        (fun _ _ => true) ⟨false, false⟩
      = ([([.Slice ['a']], .Number ['1'])], .ok 6) ∧
    byteDrop 6 ['{', '"', 'a', '"', ':', '1', ',', '"', 'b', '"', ':', '2', '}']
      = [',', '"', 'b', '"', ':', '2', '}'] := by
  refine ⟨?_, ?_, rfl, rfl, rfl⟩
  · intro options stop idx acc kc evs h
    simp only [step]
    rw [if_pos ⟨trivial, trivial⟩, if_pos h]
    rfl
  · intro options stop idx acc kc evs chr h hstop
    have hcond : is_whitespace chr = true ∨ chr = '}' ∨ chr = ',' ∨ chr = ']' := by
      rcases h with rfl | rfl | rfl | hw
      · right; right; left; rfl
      · right; left; rfl
      · right; right; right; rfl
      · left; exact hw
    simp only [step]
    rw [if_pos hcond, if_pos hstop]

/-- C2 witness: the string case applied at a concrete stopping callback. -/
theorem c2_early_exit_offsets_witness :
    step ⟨false, false⟩ (fun _ _ => true) 7 '"' ⟨.StringValue false ['x'], [], []⟩
      = .inr ([([], .String ['x'])], .ok 8) :=
  c2_early_exit_offsets.1 ⟨false, false⟩ (fun _ _ => true) 7 ['x'] [] [] rfl

/-- C3 counterexample: on an input containing a line comment, `parse` (which
passes `ParseOptions::default()`, i.e. comments disabled) fails with
`ExpectedKey` at the first `/`, while the behaviour the claim describes
(comment tolerance enabled) parses the input successfully; the two differ. -/
theorem c3_counterexample :
    parse ['{', ' ', '/', '/', ' ', 'c', '\n', '"', 'a', '"', ':', ' ', '1', ' ', '}']
      = ([], .error ⟨2, .ExpectedKey⟩) ∧
    parseSpecC3 ['{', ' ', '/', '/', ' ', 'c', '\n', '"', 'a', '"', ':', ' ', '1', ' ', '}']
      = ([([.Slice ['a']], .Number ['1'])], .ok 15) ∧
    parse ['{', ' ', '/', '/', ' ', 'c', '\n', '"', 'a', '"', ':', ' ', '1', ' ', '}']
      ≠ parseSpecC3 ['{', ' ', '/', '/', ' ', 'c', '\n', '"', 'a', '"', ':', ' ', '1', ' ', '}'] := by
  refine ⟨rfl, rfl, ?_⟩
  intro h
  have h2 : (([], .error ⟨2, .ExpectedKey⟩) : List Ev × Except JSONParseError Nat)
      = ([([.Slice ['a']], .Number ['1'])], .ok 15) := h
  simp at h2

/-- C3 (amended): for every input, `parse` behaves exactly as
`parse_with_exit_signal` with the callback wrapped to always return `false`
and `ParseOptions::default()`, i.e. early exit disabled and comment tolerance
also disabled: same callback invocations, same `Ok` offset or error. -/
theorem c3_parse_uses_default_options (l : List Char) :
    parse l = parse_with_exit_signal l (fun _ _ => false) ⟨false, false⟩ := rfl

/-- C9: end-of-input finalization from the number-scanning state emits the
number and returns `Ok` at the end offset without consulting the callback's
stop signal; and a whole parse of the trailing-number input `12` returns the
emitted number and `Ok 2` for every callback whatsoever. -/
theorem c9_trailing_number :
    (∀ (options : ParseOptions) (stop : List JSONKey → RootJSONValue → Bool)
        (idx : Nat) (kc : List JSONKey) (evs : List Ev) (acc : List Char),
      runFrom options stop [] idx ⟨.NumberValue acc, kc, evs⟩
        = (evs ++ [(kc.reverse, .Number acc)], .ok idx)) ∧
    (∀ stop : List JSONKey → RootJSONValue → Bool,
      parse_with_exit_signal ['1', '2'] stop ⟨false, false⟩
        = ([([], .Number ['1', '2'])], .ok 2)) := by
  exact ⟨fun _ _ _ _ _ _ => rfl, fun _ => rfl⟩

/-- C8 counterexample: immediately after the machine consumes the single
character `{`, one bracket is open (`bracketBalance` is 1) but the key-path
stack is still empty, so the stack depth does not equal the number of
currently-open brackets at that point of the parse. -/
theorem c8_counterexample :
    step ⟨false, false⟩ (fun _ _ => false) 0 '{' ⟨.ExpectingValue, [], []⟩
      = .inl ⟨.InObject, [], []⟩ ∧
    bracketBalance ['{'] = 1 ∧
    (([] : List JSONKey).length : Int) ≠ 1 := by
  refine ⟨rfl, rfl, by decide⟩

/-- Accepted `end_of_value` transitions change the key chain only by an
increment of a top `Index`, a pop, or not at all. -/
theorem end_of_value_stackStep
    (idx : Nat) (chr : Char) (st : State) (kc : List JSONKey) (ac : Bool)
    (st2 : State) (kc2 : List JSONKey)
    (h : end_of_value idx chr st kc ac = .ok (st2, kc2)) :
    stackStep kc kc2 := by
  unfold end_of_value at h
  split at h
  · rcases kc with _ | ⟨k, rest⟩
    · simp at h
      first
        | exact Or.inl h.2
        | exact Or.inl h.2.symm
    · cases k with
      | Slice s =>
        simp at h
        first
          | exact Or.inr (Or.inr (Or.inl h.2))
          | exact Or.inr (Or.inr (Or.inl h.2.symm))
      | Index i =>
        simp at h
        first
          | exact Or.inr (Or.inr (Or.inr ⟨i, rest, rfl, h.2⟩))
          | exact Or.inr (Or.inr (Or.inr ⟨i, rest, rfl, h.2.symm⟩))
  · split at h
    · simp at h
      first
        | exact Or.inr (Or.inr (Or.inl h.2))
        | exact Or.inr (Or.inr (Or.inl h.2.symm))
    · split at h
      · simp at h
        first
          | exact Or.inr (Or.inr (Or.inl h.2))
          | exact Or.inr (Or.inr (Or.inl h.2.symm))
      · split at h
        · simp at h
          first
            | exact Or.inr (Or.inr (Or.inl h.2))
            | exact Or.inr (Or.inr (Or.inl h.2.symm))
        · split at h
          · simp at h
          · simp at h
            first
              | exact Or.inl h.2
              | exact Or.inl h.2.symm

/-- C8 (amended): across every accepted scan step the key-path stack either
stays unchanged, gains one pushed entry, loses exactly its popped top entry,
or has a top `Index i` replaced by `Index (i+1)` (the comma between array
siblings); consequently an `Index` entry's value never decreases while it
remains on the stack.  The stack depth does not always equal the number of
currently-open brackets: after `{` the bracket is open but nothing is pushed
until its first key completes (see the counterexample). -/
theorem c8_stack_evolution
    (options : ParseOptions) (stop : List JSONKey → RootJSONValue → Bool)
    (idx : Nat) (chr : Char) (cfg cfg2 : Config)
    (h : step options stop idx chr cfg = .inl cfg2) :
    stackStep cfg.key_chain cfg2.key_chain := by
  obtain ⟨st, kc, evs⟩ := cfg
  cases st with
  | InKey escaped acc =>
    simp only [step] at h
    split at h
    · cases h
      exact Or.inr (Or.inl ⟨_, rfl⟩)
    · cases h
      exact Or.inl rfl
  | StringValue escaped acc =>
    simp only [step] at h
    split at h
    · split at h
      · simp at h
      · cases h
        exact Or.inl rfl
    · cases h
      exact Or.inl rfl
  | Colon =>
    simp only [step] at h
    split at h
    · cases h
      exact Or.inl rfl
    · split at h
      · simp at h
      · cases h
        exact Or.inl rfl
  | EndOfValue =>
    rcases heov : end_of_value idx chr .EndOfValue kc options.allow_comments
        with e | ⟨st2, kc2⟩ <;>
      simp only [step, heov] at h
    · simp at h
    · split at h
      · simp at h
      · cases h
        exact end_of_value_stackStep _ _ _ _ _ _ _ heov
  | Comment start multiline last_was_asterisk hash =>
    simp only [step] at h
    split at h
    · split at h
      · cases h; exact Or.inl rfl
      · cases h; exact Or.inl rfl
    · split at h
      · cases h; exact Or.inl rfl
      · split at h
        · split at h
          · split at h
            · cases h; exact Or.inl rfl
            · cases h; exact Or.inl rfl
          · cases h; exact Or.inl rfl
        · cases h; exact Or.inl rfl
  | ExpectingValue =>
    simp only [step] at h
    split at h
    · cases h; exact Or.inl rfl
    · split at h
      · cases h
        exact Or.inr (Or.inl ⟨_, rfl⟩)
      · split at h
        · cases h; exact Or.inl rfl
        · split at h
          · cases h; exact Or.inl rfl
          · split at h
            · cases h; exact Or.inl rfl
            · split at h
              · cases h; exact Or.inl rfl
              · split at h
                · cases h; exact Or.inl rfl
                · simp at h
  | InObject =>
    simp only [step] at h
    split at h
    · cases h; exact Or.inl rfl
    · split at h
      · split at h
        · cases h; exact Or.inl rfl
        · cases h; exact Or.inl rfl
      · split at h
        · cases h; exact Or.inl rfl
        · split at h
          · simp at h
          · cases h; exact Or.inl rfl
  | NumberValue acc =>
    rcases heov : end_of_value idx chr .EndOfValue kc options.allow_comments
        with e | ⟨st2, kc2⟩ <;>
      simp only [step, heov] at h
    · split at h
      · split at h
        · simp at h
        · simp at h
      · cases h
        exact Or.inl rfl
    · split at h
      · split at h
        · simp at h
        · cases h
          exact end_of_value_stackStep _ _ _ _ _ _ _ heov
      · cases h
        exact Or.inl rfl
  | TrueFalseNull start acc =>
    simp only [step] at h
    split at h
    · cases h; exact Or.inl rfl
    · split at h
      · split at h
        · split at h
          · simp at h
          · cases h; exact Or.inl rfl
        · split at h
          · split at h
            · simp at h
            · cases h; exact Or.inl rfl
          · split at h
            · cases h; exact Or.inl rfl
            · simp at h
      · split at h
        · split at h
          · simp at h
          · cases h; exact Or.inl rfl
        · simp at h

/-- C8 witness: the step classification applied at the concrete first step of
parsing `{`. -/
theorem c8_stack_evolution_witness :
    stackStep ([] : List JSONKey) ([] : List JSONKey) :=
  c8_stack_evolution ⟨false, false⟩ (fun _ _ => false) 0 '{'
    ⟨.ExpectingValue, [], []⟩ ⟨.InObject, [], []⟩ rfl

/-! Byte lengths. -/

@[simp] theorem blen_nil : blen [] = 0 := rfl

@[simp] theorem blen_cons (c : Char) (l : List Char) :
    blen (c :: l) = c.utf8Size + blen l := by
  simp [blen]

@[simp] theorem blen_append (a b : List Char) :
    blen (a ++ b) = blen a + blen b := by
  simp [blen]

@[simp] theorem utf8Size_quote : ('"' : Char).utf8Size = 1 := rfl
@[simp] theorem utf8Size_lbrace : ('{' : Char).utf8Size = 1 := rfl
@[simp] theorem utf8Size_rbrace : ('}' : Char).utf8Size = 1 := rfl
@[simp] theorem utf8Size_lbracket : ('[' : Char).utf8Size = 1 := rfl
@[simp] theorem utf8Size_rbracket : (']' : Char).utf8Size = 1 := rfl
@[simp] theorem utf8Size_colon : (':' : Char).utf8Size = 1 := rfl
@[simp] theorem utf8Size_comma : (',' : Char).utf8Size = 1 := rfl
@[simp] theorem utf8Size_t : ('t' : Char).utf8Size = 1 := rfl
@[simp] theorem utf8Size_r : ('r' : Char).utf8Size = 1 := rfl
@[simp] theorem utf8Size_u : ('u' : Char).utf8Size = 1 := rfl
@[simp] theorem utf8Size_e : ('e' : Char).utf8Size = 1 := rfl
@[simp] theorem utf8Size_f : ('f' : Char).utf8Size = 1 := rfl
@[simp] theorem utf8Size_a : ('a' : Char).utf8Size = 1 := rfl
@[simp] theorem utf8Size_l : ('l' : Char).utf8Size = 1 := rfl
@[simp] theorem utf8Size_s : ('s' : Char).utf8Size = 1 := rfl
@[simp] theorem utf8Size_n : ('n' : Char).utf8Size = 1 := rfl

/-! Unfolding the scan loop one accepted or returning step at a time. -/

theorem runFrom_cons_inl {options : ParseOptions}
    {stop : List JSONKey → RootJSONValue → Bool} {c : Char} {rest : List Char}
    {idx : Nat} {cfg cfg2 : Config}
    (h : step options stop idx c cfg = .inl cfg2) :
    runFrom options stop (c :: rest) idx cfg
      = runFrom options stop rest (idx + c.utf8Size) cfg2 := by
  simp only [runFrom, h]

theorem runFrom_cons_inr {options : ParseOptions}
    {stop : List JSONKey → RootJSONValue → Bool} {c : Char} {rest : List Char}
    {idx : Nat} {cfg : Config} {out : List Ev × Except JSONParseError Nat}
    (h : step options stop idx c cfg = .inr out) :
    runFrom options stop (c :: rest) idx cfg = out := by
  simp only [runFrom, h]

/-- Scanning string-value content: each character that is not an unescaped
quote is consumed and appended to the accumulated slice. -/
theorem runFrom_string_content (options : ParseOptions)
    (stop : List JSONKey → RootJSONValue → Bool) :
    ∀ (s : List Char) (escaped : Bool) (acc : List Char) (kc : List JSONKey)
      (evs : List Ev) (idx : Nat) (rest : List Char),
    okStr s escaped = true →
    runFrom options stop (s ++ rest) idx ⟨.StringValue escaped acc, kc, evs⟩
      = runFrom options stop rest (idx + blen s)
          ⟨.StringValue false (acc ++ s), kc, evs⟩ := by
  intro s
  induction s with
  | nil =>
    intro escaped acc kc evs idx rest h
    have he : escaped = false := by
      cases escaped
      · rfl
      · simp [okStr] at h
    subst he
    simp
  | cons c cs ih =>
    intro escaped acc kc evs idx rest h
    rw [okStr] at h
    by_cases hq : escaped = false ∧ c = '"'
    · rw [if_pos hq] at h
      exact absurd h (by simp)
    · rw [if_neg hq] at h
      have hstep : step options stop idx c ⟨.StringValue escaped acc, kc, evs⟩
          = .inl ⟨.StringValue (c == '\\') (acc ++ [c]), kc, evs⟩ := by
        simp only [step]
        rw [if_neg hq]
      rw [List.cons_append, runFrom_cons_inl hstep,
        ih (c == '\\') (acc ++ [c]) kc evs (idx + c.utf8Size) rest h]
      have h1 : idx + c.utf8Size + blen cs = idx + blen (c :: cs) := by
        rw [blen_cons]; omega
      have h2 : (acc ++ [c]) ++ cs = acc ++ c :: cs := by simp
      rw [h1, h2]

/-- Scanning object-key content, identically to string content. -/
theorem runFrom_key_content (options : ParseOptions)
    (stop : List JSONKey → RootJSONValue → Bool) :
    ∀ (s : List Char) (escaped : Bool) (acc : List Char) (kc : List JSONKey)
      (evs : List Ev) (idx : Nat) (rest : List Char),
    okStr s escaped = true →
    runFrom options stop (s ++ rest) idx ⟨.InKey escaped acc, kc, evs⟩
      = runFrom options stop rest (idx + blen s)
          ⟨.InKey false (acc ++ s), kc, evs⟩ := by
  intro s
  induction s with
  | nil =>
    intro escaped acc kc evs idx rest h
    have he : escaped = false := by
      cases escaped
      · rfl
      · simp [okStr] at h
    subst he
    simp
  | cons c cs ih =>
    intro escaped acc kc evs idx rest h
    rw [okStr] at h
    by_cases hq : escaped = false ∧ c = '"'
    · rw [if_pos hq] at h
      exact absurd h (by simp)
    · rw [if_neg hq] at h
      have hstep : step options stop idx c ⟨.InKey escaped acc, kc, evs⟩
          = .inl ⟨.InKey (c == '\\') (acc ++ [c]), kc, evs⟩ := by
        simp only [step]
        rw [if_neg hq]
      rw [List.cons_append, runFrom_cons_inl hstep,
        ih (c == '\\') (acc ++ [c]) kc evs (idx + c.utf8Size) rest h]
      have h1 : idx + c.utf8Size + blen cs = idx + blen (c :: cs) := by
        rw [blen_cons]; omega
      have h2 : (acc ++ [c]) ++ cs = acc ++ c :: cs := by simp
      rw [h1, h2]

/-- Scanning the tail of a number: non-delimiter characters are consumed and
appended to the accumulated slice. -/
theorem runFrom_number_content (options : ParseOptions)
    (stop : List JSONKey → RootJSONValue → Bool) :
    ∀ (t : List Char) (acc : List Char) (kc : List JSONKey) (evs : List Ev)
      (idx : Nat) (rest : List Char),
    t.all numCharOk = true →
    runFrom options stop (t ++ rest) idx ⟨.NumberValue acc, kc, evs⟩
      = runFrom options stop rest (idx + blen t)
          ⟨.NumberValue (acc ++ t), kc, evs⟩ := by
  intro t
  induction t with
  | nil =>
    intro acc kc evs idx rest _
    simp
  | cons c cs ih =>
    intro acc kc evs idx rest h
    rw [List.all_cons, Bool.and_eq_true] at h
    have hc := h.1
    simp only [numCharOk, Bool.and_eq_true, Bool.not_eq_true', beq_eq_false_iff_ne,
      ne_eq] at hc
    have hnd : ¬(is_whitespace c = true ∨ c = '}' ∨ c = ',' ∨ c = ']') := by
      intro hor
      rcases hor with hw | rfl | rfl | rfl
      · rw [hc.1.1.1] at hw
        exact Bool.false_ne_true hw
      · exact hc.1.1.2 rfl
      · exact hc.1.2 rfl
      · exact hc.2 rfl
    have hstep : step options stop idx c ⟨.NumberValue acc, kc, evs⟩
        = .inl ⟨.NumberValue (acc ++ [c]), kc, evs⟩ := by
      simp only [step]
      rw [if_neg hnd]
    rw [List.cons_append, runFrom_cons_inl hstep,
      ih (acc ++ [c]) kc evs (idx + c.utf8Size) rest h.2]
    have h1 : idx + c.utf8Size + blen cs = idx + blen (c :: cs) := by
      rw [blen_cons]; omega
    have h2 : (acc ++ [c]) ++ cs = acc ++ c :: cs := by simp
    rw [h1, h2]

/-! Single steps inside a `true`/`false`/`null` literal token. -/

theorem step_tfn_buffer {options : ParseOptions}
    {stop : List JSONKey → RootJSONValue → Bool} {idx start : Nat}
    {acc : List Char} {kc : List JSONKey} {evs : List Ev} {chr : Char}
    (h : idx - start + 1 < 4) :
    step options stop idx chr ⟨.TrueFalseNull start acc, kc, evs⟩
      = .inl ⟨.TrueFalseNull start (acc ++ [chr]), kc, evs⟩ := by
  simp only [step]
  rw [if_pos h]

theorem step_tfn_true {options : ParseOptions}
    {stop : List JSONKey → RootJSONValue → Bool} {idx start : Nat}
    {acc : List Char} {kc : List JSONKey} {evs : List Ev} {chr : Char}
    (h4 : idx - start + 1 = 4) (htok : acc ++ [chr] = ['t', 'r', 'u', 'e'])
    (hstop : stop kc.reverse (.Boolean true) = false) :
    step options stop idx chr ⟨.TrueFalseNull start acc, kc, evs⟩
      = .inl ⟨.EndOfValue, kc, evs ++ [(kc.reverse, .Boolean true)]⟩ := by
  simp only [step]
  rw [if_neg (by omega), if_pos h4, htok, hstop]
  rfl

theorem step_tfn_null {options : ParseOptions}
    {stop : List JSONKey → RootJSONValue → Bool} {idx start : Nat}
    {acc : List Char} {kc : List JSONKey} {evs : List Ev} {chr : Char}
    (h4 : idx - start + 1 = 4) (htok : acc ++ [chr] = ['n', 'u', 'l', 'l'])
    (hstop : stop kc.reverse .Null = false) :
    step options stop idx chr ⟨.TrueFalseNull start acc, kc, evs⟩
      = .inl ⟨.EndOfValue, kc, evs ++ [(kc.reverse, .Null)]⟩ := by
  simp only [step]
  rw [if_neg (by omega), if_pos h4, htok, hstop]
  rfl

theorem step_tfn_fals {options : ParseOptions}
    {stop : List JSONKey → RootJSONValue → Bool} {idx start : Nat}
    {acc : List Char} {kc : List JSONKey} {evs : List Ev} {chr : Char}
    (h4 : idx - start + 1 = 4) (htok : acc ++ [chr] = ['f', 'a', 'l', 's']) :
    step options stop idx chr ⟨.TrueFalseNull start acc, kc, evs⟩
      = .inl ⟨.TrueFalseNull start ['f', 'a', 'l', 's'], kc, evs⟩ := by
  simp only [step]
  rw [if_neg (by omega), if_pos h4, htok]
  rfl

theorem step_tfn_false {options : ParseOptions}
    {stop : List JSONKey → RootJSONValue → Bool} {idx start : Nat}
    {acc : List Char} {kc : List JSONKey} {evs : List Ev} {chr : Char}
    (h4 : ¬ idx - start + 1 < 4) (h5 : ¬ idx - start + 1 = 4)
    (htok : acc ++ [chr] = ['f', 'a', 'l', 's', 'e'])
    (hstop : stop kc.reverse (.Boolean false) = false) :
    step options stop idx chr ⟨.TrueFalseNull start acc, kc, evs⟩
      = .inl ⟨.EndOfValue, kc, evs ++ [(kc.reverse, .Boolean false)]⟩ := by
  simp only [step]
  rw [if_neg h4, if_neg h5, htok, hstop]
  rfl

/-! The delimiter following a completed value, from the post-value state: a
still-pending number is emitted there and `end_of_value` runs; a completed
value goes through `end_of_value` directly.  Options are both off. -/

theorem leaves_eq_emits_pending (path : List JSONKey) (t : JDoc) :
    leaves path t = emitsOf path t ++ pendingOf path t := by
  cases t with
  | scalar s => cases s <;> simp [leaves, emitsOf, pendingOf, valOf]
  | object ms => simp [leaves, emitsOf, pendingOf]
  | array es => simp [leaves, emitsOf, pendingOf]

theorem step_post_comma_obj
    (stop : List JSONKey → RootJSONValue → Bool)
    (hstop : ∀ k v, stop k v = false) (t : JDoc) (idx : Nat)
    (k : List Char) (kc : List JSONKey) (E : List Ev) :
    step ⟨false, false⟩ stop idx ',' ⟨postOf t, .Slice k :: kc, E⟩
      = .inl ⟨.InObject, kc, E ++ pendingOf ((JSONKey.Slice k :: kc).reverse) t⟩ := by
  cases t with
  | scalar s =>
    cases s <;> simp [step, end_of_value, postOf, pendingOf, hstop]
  | object ms => simp [step, end_of_value, postOf, pendingOf]
  | array es => simp [step, end_of_value, postOf, pendingOf]

theorem step_post_comma_arr
    (stop : List JSONKey → RootJSONValue → Bool)
    (hstop : ∀ k v, stop k v = false) (t : JDoc) (idx : Nat)
    (i : Nat) (kc : List JSONKey) (E : List Ev) :
    step ⟨false, false⟩ stop idx ',' ⟨postOf t, .Index i :: kc, E⟩
      = .inl ⟨.ExpectingValue, .Index (i + 1) :: kc,
          E ++ pendingOf ((JSONKey.Index i :: kc).reverse) t⟩ := by
  cases t with
  | scalar s =>
    cases s <;> simp [step, end_of_value, postOf, pendingOf, hstop]
  | object ms => simp [step, end_of_value, postOf, pendingOf]
  | array es => simp [step, end_of_value, postOf, pendingOf]

theorem step_post_rbrace
    (stop : List JSONKey → RootJSONValue → Bool)
    (hstop : ∀ k v, stop k v = false) (t : JDoc) (idx : Nat)
    (k : List Char) (kc : List JSONKey) (E : List Ev) :
    step ⟨false, false⟩ stop idx '}' ⟨postOf t, .Slice k :: kc, E⟩
      = .inl ⟨.EndOfValue, kc, E ++ pendingOf ((JSONKey.Slice k :: kc).reverse) t⟩ := by
  cases t with
  | scalar s =>
    cases s <;> simp [step, end_of_value, postOf, pendingOf, topIsSlice, hstop]
  | object ms => simp [step, end_of_value, postOf, pendingOf, topIsSlice]
  | array es => simp [step, end_of_value, postOf, pendingOf, topIsSlice]

theorem step_post_rbracket
    (stop : List JSONKey → RootJSONValue → Bool)
    (hstop : ∀ k v, stop k v = false) (t : JDoc) (idx : Nat)
    (i : Nat) (kc : List JSONKey) (E : List Ev) :
    step ⟨false, false⟩ stop idx ']' ⟨postOf t, .Index i :: kc, E⟩
      = .inl ⟨.EndOfValue, kc, E ++ pendingOf ((JSONKey.Index i :: kc).reverse) t⟩ := by
  cases t with
  | scalar s =>
    cases s <;> simp [step, end_of_value, postOf, pendingOf, topIsIndex, hstop]
  | object ms => simp [step, end_of_value, postOf, pendingOf, topIsIndex]
  | array es => simp [step, end_of_value, postOf, pendingOf, topIsIndex]

theorem emitsM_pending : ∀ (path : List JSONKey) (ms : JMembers),
    emitsM path ms ++ pendingOf (path ++ [.Slice (lastKeyM ms)]) (lastValM ms)
      = leavesM path ms
  | path, .single k v => by
    simp [emitsM, lastKeyM, lastValM, leavesM, leaves_eq_emits_pending]
  | path, .cons k v rest => by
    simp [emitsM, lastKeyM, lastValM, leavesM, emitsM_pending path rest]

theorem emitsE_pending : ∀ (path : List JSONKey) (i : Nat) (es : JElements),
    emitsE path i es ++ pendingOf (path ++ [.Index (finalIdxE i es)]) (lastValE es)
      = leavesE path i es
  | path, i, .single v => by
    simp [emitsE, finalIdxE, lastValE, leavesE, leaves_eq_emits_pending]
  | path, i, .cons v rest => by
    simp [emitsE, finalIdxE, lastValE, leavesE, emitsE_pending path (i + 1) rest]

/-- The closing quote of a string value with the escape flag off: the value is
emitted and the machine moves to the between-values state (non-stopping
callback). -/
theorem step_string_close {options : ParseOptions}
    {stop : List JSONKey → RootJSONValue → Bool} {idx : Nat}
    {acc : List Char} {kc : List JSONKey} {evs : List Ev}
    (hstop : stop kc.reverse (.String acc) = false) :
    step options stop idx '"' ⟨.StringValue false acc, kc, evs⟩
      = .inl ⟨.EndOfValue, kc, evs ++ [(kc.reverse, .String acc)]⟩ := by
  simp only [step]
  rw [hstop]
  rfl

/-- Scanning the whole literal `true` from the value-expecting state. -/
theorem runFrom_literal_true
    (stop : List JSONKey → RootJSONValue → Bool)
    (hstop : ∀ k v, stop k v = false)
    (rest : List Char) (idx : Nat) (kc : List JSONKey) (evs : List Ev) :
    runFrom ⟨false, false⟩ stop ('t' :: 'r' :: 'u' :: 'e' :: rest) idx
        ⟨.ExpectingValue, kc, evs⟩
      = runFrom ⟨false, false⟩ stop rest (idx + 4)
          ⟨.EndOfValue, kc, evs ++ [(kc.reverse, .Boolean true)]⟩ := by
  have h1 : step ⟨false, false⟩ stop idx 't' ⟨.ExpectingValue, kc, evs⟩
      = .inl ⟨.TrueFalseNull idx ['t'], kc, evs⟩ := rfl
  have h2 : step ⟨false, false⟩ stop (idx + 1) 'r' ⟨.TrueFalseNull idx ['t'], kc, evs⟩
      = .inl ⟨.TrueFalseNull idx ['t', 'r'], kc, evs⟩ :=
    step_tfn_buffer (by omega)
  have h3 : step ⟨false, false⟩ stop (idx + 1 + 1) 'u'
        ⟨.TrueFalseNull idx ['t', 'r'], kc, evs⟩
      = .inl ⟨.TrueFalseNull idx ['t', 'r', 'u'], kc, evs⟩ :=
    step_tfn_buffer (by omega)
  have h4 : step ⟨false, false⟩ stop (idx + 1 + 1 + 1) 'e'
        ⟨.TrueFalseNull idx ['t', 'r', 'u'], kc, evs⟩
      = .inl ⟨.EndOfValue, kc, evs ++ [(kc.reverse, .Boolean true)]⟩ :=
    step_tfn_true (by omega) rfl (hstop _ _)
  rw [runFrom_cons_inl h1]
  simp only [utf8Size_t]
  rw [runFrom_cons_inl h2]
  simp only [utf8Size_r]
  rw [runFrom_cons_inl h3]
  simp only [utf8Size_u]
  rw [runFrom_cons_inl h4]
  simp only [utf8Size_e]

/-- Scanning the whole literal `null` from the value-expecting state. -/
theorem runFrom_literal_null
    (stop : List JSONKey → RootJSONValue → Bool)
    (hstop : ∀ k v, stop k v = false)
    (rest : List Char) (idx : Nat) (kc : List JSONKey) (evs : List Ev) :
    runFrom ⟨false, false⟩ stop ('n' :: 'u' :: 'l' :: 'l' :: rest) idx
        ⟨.ExpectingValue, kc, evs⟩
      = runFrom ⟨false, false⟩ stop rest (idx + 4)
          ⟨.EndOfValue, kc, evs ++ [(kc.reverse, .Null)]⟩ := by
  have h1 : step ⟨false, false⟩ stop idx 'n' ⟨.ExpectingValue, kc, evs⟩
      = .inl ⟨.TrueFalseNull idx ['n'], kc, evs⟩ := rfl
  have h2 : step ⟨false, false⟩ stop (idx + 1) 'u' ⟨.TrueFalseNull idx ['n'], kc, evs⟩
      = .inl ⟨.TrueFalseNull idx ['n', 'u'], kc, evs⟩ :=
    step_tfn_buffer (by omega)
  have h3 : step ⟨false, false⟩ stop (idx + 1 + 1) 'l'
        ⟨.TrueFalseNull idx ['n', 'u'], kc, evs⟩
      = .inl ⟨.TrueFalseNull idx ['n', 'u', 'l'], kc, evs⟩ :=
    step_tfn_buffer (by omega)
  have h4 : step ⟨false, false⟩ stop (idx + 1 + 1 + 1) 'l'
        ⟨.TrueFalseNull idx ['n', 'u', 'l'], kc, evs⟩
      = .inl ⟨.EndOfValue, kc, evs ++ [(kc.reverse, .Null)]⟩ :=
    step_tfn_null (by omega) rfl (hstop _ _)
  rw [runFrom_cons_inl h1]
  simp only [utf8Size_n]
  rw [runFrom_cons_inl h2]
  simp only [utf8Size_u]
  rw [runFrom_cons_inl h3]
  simp only [utf8Size_l]
  rw [runFrom_cons_inl h4]
  simp only [utf8Size_l]

/-- Scanning the whole literal `false` from the value-expecting state. -/
theorem runFrom_literal_false
    (stop : List JSONKey → RootJSONValue → Bool)
    (hstop : ∀ k v, stop k v = false)
    (rest : List Char) (idx : Nat) (kc : List JSONKey) (evs : List Ev) :
    runFrom ⟨false, false⟩ stop ('f' :: 'a' :: 'l' :: 's' :: 'e' :: rest) idx
        ⟨.ExpectingValue, kc, evs⟩
      = runFrom ⟨false, false⟩ stop rest (idx + 5)
          ⟨.EndOfValue, kc, evs ++ [(kc.reverse, .Boolean false)]⟩ := by
  have h1 : step ⟨false, false⟩ stop idx 'f' ⟨.ExpectingValue, kc, evs⟩
      = .inl ⟨.TrueFalseNull idx ['f'], kc, evs⟩ := rfl
  have h2 : step ⟨false, false⟩ stop (idx + 1) 'a' ⟨.TrueFalseNull idx ['f'], kc, evs⟩
      = .inl ⟨.TrueFalseNull idx ['f', 'a'], kc, evs⟩ :=
    step_tfn_buffer (by omega)
  have h3 : step ⟨false, false⟩ stop (idx + 1 + 1) 'l'
        ⟨.TrueFalseNull idx ['f', 'a'], kc, evs⟩
      = .inl ⟨.TrueFalseNull idx ['f', 'a', 'l'], kc, evs⟩ :=
    step_tfn_buffer (by omega)
  have h4 : step ⟨false, false⟩ stop (idx + 1 + 1 + 1) 's'
        ⟨.TrueFalseNull idx ['f', 'a', 'l'], kc, evs⟩
      = .inl ⟨.TrueFalseNull idx ['f', 'a', 'l', 's'], kc, evs⟩ :=
    step_tfn_fals (by omega) rfl
  have h5 : step ⟨false, false⟩ stop (idx + 1 + 1 + 1 + 1) 'e'
        ⟨.TrueFalseNull idx ['f', 'a', 'l', 's'], kc, evs⟩
      = .inl ⟨.EndOfValue, kc, evs ++ [(kc.reverse, .Boolean false)]⟩ :=
    step_tfn_false (by omega) (by omega) rfl (hstop _ _)
  rw [runFrom_cons_inl h1]
  simp only [utf8Size_f]
  rw [runFrom_cons_inl h2]
  simp only [utf8Size_a]
  rw [runFrom_cons_inl h3]
  simp only [utf8Size_l]
  rw [runFrom_cons_inl h4]
  simp only [utf8Size_s]
  rw [runFrom_cons_inl h5]
  simp only [utf8Size_e]

/-- A number's first character (digit or minus) is not a structural opener. -/
theorem digit_start_ne {c : Char}
    (hd : (48 ≤ c.toNat ∧ c.toNat ≤ 57) ∨ c = '-') :
    c ≠ '{' ∧ c ≠ '[' ∧ c ≠ '"' := by
  rcases hd with ⟨hlo, hhi⟩ | rfl
  · refine ⟨?_, ?_, ?_⟩
    · intro hh; rw [hh] at hhi; revert hhi; decide
    · intro hh; rw [hh] at hhi; revert hhi; decide
    · intro hh; rw [hh] at hlo; revert hlo; decide
  · exact ⟨by decide, by decide, by decide⟩

/-! Main simulation: consuming the canonical serialization of a well-formed
value (object body, array body) from the appropriate state emits exactly its
leaves in document order, with a top-level number still pending. -/

mutual

theorem runFrom_ser (stop : List JSONKey → RootJSONValue → Bool)
    (hstop : ∀ k v, stop k v = false) :
    ∀ (t : JDoc), wfDoc t = true →
    ∀ (rest : List Char) (idx : Nat) (kc : List JSONKey) (evs : List Ev),
    runFrom ⟨false, false⟩ stop (ser t ++ rest) idx ⟨.ExpectingValue, kc, evs⟩
      = runFrom ⟨false, false⟩ stop rest (idx + blen (ser t))
          ⟨postOf t, kc, evs ++ emitsOf kc.reverse t⟩
  | .scalar (.string s), hwf, rest, idx, kc, evs => by
    have hs : okStr s false = true := by simpa [wfDoc, wfScalar] using hwf
    have h1 : step ⟨false, false⟩ stop idx '"' ⟨.ExpectingValue, kc, evs⟩
        = .inl ⟨.StringValue false [], kc, evs⟩ := rfl
    rw [show ser (.scalar (.string s)) ++ rest = '"' :: (s ++ ('"' :: rest)) by
      simp [ser, serScalar]]
    rw [runFrom_cons_inl h1]
    simp only [utf8Size_quote]
    rw [runFrom_string_content _ _ s false [] kc evs (idx + 1) _ hs]
    simp only [List.nil_append]
    rw [runFrom_cons_inl (step_string_close (hstop _ _))]
    simp only [utf8Size_quote]
    have harith : idx + 1 + blen s + 1 = idx + blen (ser (.scalar (.string s))) := by
      simp [ser, serScalar]
      omega
    rw [harith]
    simp [postOf, emitsOf, leaves, valOf]
  | .scalar (.number n), hwf, rest, idx, kc, evs => by
    cases n with
    | nil => simp [wfDoc, wfScalar] at hwf
    | cons c cs =>
      simp only [wfDoc, wfScalar, Bool.and_eq_true, decide_eq_true_eq] at hwf
      obtain ⟨hd, hall⟩ := hwf
      obtain ⟨hn1, hn2, hn3⟩ := digit_start_ne hd
      have hstep : step ⟨false, false⟩ stop idx c ⟨.ExpectingValue, kc, evs⟩
          = .inl ⟨.NumberValue [c], kc, evs⟩ := by
        simp only [step]
        rw [if_neg hn1, if_neg hn2, if_neg hn3, if_neg (by simp), if_pos hd]
      rw [show ser (.scalar (.number (c :: cs))) ++ rest = c :: (cs ++ rest) by
        simp [ser, serScalar]]
      rw [runFrom_cons_inl hstep]
      rw [runFrom_number_content _ _ cs [c] kc evs (idx + c.utf8Size) rest hall]
      have harith : idx + c.utf8Size + blen cs
          = idx + blen (ser (.scalar (.number (c :: cs)))) := by
        simp [ser, serScalar]
        omega
      rw [harith]
      simp [postOf, emitsOf]
  | .scalar (.boolean true), _, rest, idx, kc, evs => by
    rw [show ser (.scalar (.boolean true)) ++ rest = 't' :: 'r' :: 'u' :: 'e' :: rest by
      simp [ser, serScalar]]
    rw [runFrom_literal_true stop hstop rest idx kc evs]
    have harith : idx + 4 = idx + blen (ser (.scalar (.boolean true))) := by
      simp [ser, serScalar]
    rw [harith]
    simp [postOf, emitsOf, leaves, valOf]
  | .scalar (.boolean false), _, rest, idx, kc, evs => by
    rw [show ser (.scalar (.boolean false)) ++ rest
        = 'f' :: 'a' :: 'l' :: 's' :: 'e' :: rest by simp [ser, serScalar]]
    rw [runFrom_literal_false stop hstop rest idx kc evs]
    have harith : idx + 5 = idx + blen (ser (.scalar (.boolean false))) := by
      simp [ser, serScalar]
    rw [harith]
    simp [postOf, emitsOf, leaves, valOf]
  | .scalar .null, _, rest, idx, kc, evs => by
    rw [show ser (.scalar .null) ++ rest = 'n' :: 'u' :: 'l' :: 'l' :: rest by
      simp [ser, serScalar]]
    rw [runFrom_literal_null stop hstop rest idx kc evs]
    have harith : idx + 4 = idx + blen (ser (.scalar .null)) := by
      simp [ser, serScalar]
    rw [harith]
    simp [postOf, emitsOf, leaves, valOf]
  | .object ms, hwf, rest, idx, kc, evs => by
    have hm : wfMembers ms = true := by simpa [wfDoc] using hwf
    have hstep : step ⟨false, false⟩ stop idx '{' ⟨.ExpectingValue, kc, evs⟩
        = .inl ⟨.InObject, kc, evs⟩ := rfl
    rw [show ser (.object ms) ++ rest = '{' :: (serMembers ms ++ ('}' :: rest)) by
      simp [ser]]
    rw [runFrom_cons_inl hstep]
    simp only [utf8Size_lbrace]
    rw [runFrom_serMembers stop hstop ms hm ('}' :: rest) (idx + 1) kc evs]
    rw [runFrom_cons_inl (step_post_rbrace stop hstop (lastValM ms) _ (lastKeyM ms) kc _)]
    simp only [utf8Size_rbrace]
    have harith : idx + 1 + blen (serMembers ms) + 1 = idx + blen (ser (.object ms)) := by
      simp [ser]
      omega
    rw [harith]
    simp only [List.reverse_cons]
    rw [List.append_assoc, emitsM_pending]
    simp [postOf, emitsOf, leaves]
  | .array es, hwf, rest, idx, kc, evs => by
    have hE : wfElements es = true := by simpa [wfDoc] using hwf
    have hstep : step ⟨false, false⟩ stop idx '[' ⟨.ExpectingValue, kc, evs⟩
        = .inl ⟨.ExpectingValue, .Index 0 :: kc, evs⟩ := rfl
    rw [show ser (.array es) ++ rest = '[' :: (serElements es ++ (']' :: rest)) by
      simp [ser]]
    rw [runFrom_cons_inl hstep]
    simp only [utf8Size_lbracket]
    rw [runFrom_serElements stop hstop es hE (']' :: rest) (idx + 1) 0 kc evs]
    rw [runFrom_cons_inl
      (step_post_rbracket stop hstop (lastValE es) _ (finalIdxE 0 es) kc _)]
    simp only [utf8Size_rbracket]
    have harith : idx + 1 + blen (serElements es) + 1
        = idx + blen (ser (.array es)) := by
      simp [ser]
      omega
    rw [harith]
    simp only [List.reverse_cons]
    rw [List.append_assoc, emitsE_pending]
    simp [postOf, emitsOf, leaves]

theorem runFrom_serMembers (stop : List JSONKey → RootJSONValue → Bool)
    (hstop : ∀ k v, stop k v = false) :
    ∀ (ms : JMembers), wfMembers ms = true →
    ∀ (rest : List Char) (idx : Nat) (kc : List JSONKey) (evs : List Ev),
    runFrom ⟨false, false⟩ stop (serMembers ms ++ rest) idx ⟨.InObject, kc, evs⟩
      = runFrom ⟨false, false⟩ stop rest (idx + blen (serMembers ms))
          ⟨postOf (lastValM ms), .Slice (lastKeyM ms) :: kc,
            evs ++ emitsM kc.reverse ms⟩
  | .single k v, hwf, rest, idx, kc, evs => by
    simp only [wfMembers, Bool.and_eq_true] at hwf
    obtain ⟨hk, hv⟩ := hwf
    have h1 : step ⟨false, false⟩ stop idx '"' ⟨.InObject, kc, evs⟩
        = .inl ⟨.InKey false [], kc, evs⟩ := rfl
    rw [show serMembers (.single k v) ++ rest
        = '"' :: (k ++ ('"' :: ':' :: (ser v ++ rest))) by simp [serMembers]]
    rw [runFrom_cons_inl h1]
    simp only [utf8Size_quote]
    rw [runFrom_key_content _ _ k false [] kc evs (idx + 1) _ hk]
    simp only [List.nil_append]
    have h2 : step ⟨false, false⟩ stop (idx + 1 + blen k) '"'
          ⟨.InKey false k, kc, evs⟩
        = .inl ⟨.Colon, .Slice k :: kc, evs⟩ := rfl
    rw [runFrom_cons_inl h2]
    simp only [utf8Size_quote]
    have h3 : step ⟨false, false⟩ stop (idx + 1 + blen k + 1) ':'
          ⟨.Colon, .Slice k :: kc, evs⟩
        = .inl ⟨.ExpectingValue, .Slice k :: kc, evs⟩ := rfl
    rw [runFrom_cons_inl h3]
    simp only [utf8Size_colon]
    rw [runFrom_ser stop hstop v hv rest _ (.Slice k :: kc) evs]
    have harith : idx + 1 + blen k + 1 + 1 + blen (ser v)
        = idx + blen (serMembers (.single k v)) := by
      simp [serMembers]
      omega
    rw [harith]
    simp [lastValM, lastKeyM, emitsM, List.reverse_cons]
  | .cons k v ms2, hwf, rest, idx, kc, evs => by
    simp only [wfMembers, Bool.and_eq_true] at hwf
    obtain ⟨⟨hk, hv⟩, hm2⟩ := hwf
    have h1 : step ⟨false, false⟩ stop idx '"' ⟨.InObject, kc, evs⟩
        = .inl ⟨.InKey false [], kc, evs⟩ := rfl
    rw [show serMembers (.cons k v ms2) ++ rest
        = '"' :: (k ++ ('"' :: ':' :: (ser v ++ (',' :: (serMembers ms2 ++ rest)))))
      by simp [serMembers]]
    rw [runFrom_cons_inl h1]
    simp only [utf8Size_quote]
    rw [runFrom_key_content _ _ k false [] kc evs (idx + 1) _ hk]
    simp only [List.nil_append]
    have h2 : step ⟨false, false⟩ stop (idx + 1 + blen k) '"'
          ⟨.InKey false k, kc, evs⟩
        = .inl ⟨.Colon, .Slice k :: kc, evs⟩ := rfl
    rw [runFrom_cons_inl h2]
    simp only [utf8Size_quote]
    have h3 : step ⟨false, false⟩ stop (idx + 1 + blen k + 1) ':'
          ⟨.Colon, .Slice k :: kc, evs⟩
        = .inl ⟨.ExpectingValue, .Slice k :: kc, evs⟩ := rfl
    rw [runFrom_cons_inl h3]
    simp only [utf8Size_colon]
    rw [runFrom_ser stop hstop v hv _ _ (.Slice k :: kc) evs]
    rw [runFrom_cons_inl (step_post_comma_obj stop hstop v _ k kc _)]
    simp only [utf8Size_comma, List.reverse_cons]
    rw [List.append_assoc, ← leaves_eq_emits_pending]
    rw [runFrom_serMembers stop hstop ms2 hm2 rest _ kc _]
    have harith : idx + 1 + blen k + 1 + 1 + blen (ser v) + 1 + blen (serMembers ms2)
        = idx + blen (serMembers (.cons k v ms2)) := by
      simp [serMembers]
      omega
    rw [harith]
    simp [lastValM, lastKeyM, emitsM, List.append_assoc]

theorem runFrom_serElements (stop : List JSONKey → RootJSONValue → Bool)
    (hstop : ∀ k v, stop k v = false) :
    ∀ (es : JElements), wfElements es = true →
    ∀ (rest : List Char) (idx : Nat) (i : Nat) (kc : List JSONKey) (evs : List Ev),
    runFrom ⟨false, false⟩ stop (serElements es ++ rest) idx
        ⟨.ExpectingValue, .Index i :: kc, evs⟩
      = runFrom ⟨false, false⟩ stop rest (idx + blen (serElements es))
          ⟨postOf (lastValE es), .Index (finalIdxE i es) :: kc,
            evs ++ emitsE kc.reverse i es⟩
  | .single v, hwf, rest, idx, i, kc, evs => by
    have hv : wfDoc v = true := by simpa [wfElements] using hwf
    rw [show serElements (.single v) ++ rest = ser v ++ rest by simp [serElements]]
    rw [runFrom_ser stop hstop v hv rest idx (.Index i :: kc) evs]
    have harith : idx + blen (ser v) = idx + blen (serElements (.single v)) := by
      simp [serElements]
    rw [harith]
    simp [lastValE, finalIdxE, emitsE, List.reverse_cons]
  | .cons v es2, hwf, rest, idx, i, kc, evs => by
    simp only [wfElements, Bool.and_eq_true] at hwf
    obtain ⟨hv, he2⟩ := hwf
    rw [show serElements (.cons v es2) ++ rest
        = ser v ++ (',' :: (serElements es2 ++ rest)) by simp [serElements]]
    rw [runFrom_ser stop hstop v hv _ idx (.Index i :: kc) evs]
    rw [runFrom_cons_inl (step_post_comma_arr stop hstop v _ i kc _)]
    simp only [utf8Size_comma, List.reverse_cons]
    rw [List.append_assoc, ← leaves_eq_emits_pending]
    rw [runFrom_serElements stop hstop es2 he2 rest _ (i + 1) kc _]
    have harith : idx + blen (ser v) + 1 + blen (serElements es2)
        = idx + blen (serElements (.cons v es2)) := by
      simp [serElements]
      omega
    rw [harith]
    simp [lastValE, finalIdxE, emitsE, List.append_assoc]

end

/-- C1: for every well-formed JSON document whose leaves are scalars
(canonically serialized), `parse_with_exit_signal` with both options off and a
callback that never stops invokes the callback exactly once per leaf scalar,
in depth-first left-to-right document order, and returns `Ok` with exactly the
input's byte length. -/
theorem c1_wellformed_document_parse (t : JDoc) (hwf : wfDoc t = true)
    (stop : List JSONKey → RootJSONValue → Bool)
    (hstop : ∀ k v, stop k v = false) :
    parse_with_exit_signal (ser t) stop ⟨false, false⟩
      = (leaves [] t, .ok (blen (ser t))) := by
  have hmain := runFrom_ser stop hstop t hwf [] 0 [] []
  rw [List.append_nil] at hmain
  unfold parse_with_exit_signal
  rw [hmain]
  cases t with
  | scalar s =>
    cases s with
    | number n => simp [runFrom, finalize, postOf, emitsOf, leaves, valOf]
    | string s2 => simp [runFrom, finalize, postOf, emitsOf, leaves, valOf]
    | boolean b => simp [runFrom, finalize, postOf, emitsOf, leaves, valOf]
    | null => simp [runFrom, finalize, postOf, emitsOf, leaves, valOf]
  | object ms => simp [runFrom, finalize, postOf, emitsOf, leaves]
  | array es => simp [runFrom, finalize, postOf, emitsOf, leaves]

/-- C1 witness: the document `{"a":1,"b":"x"}` parsed with a non-stopping
callback. -/
theorem c1_wellformed_document_parse_witness :
    parse_with_exit_signal (ser c1doc) (fun _ _ => false) ⟨false, false⟩
      = (leaves [] c1doc, .ok (blen (ser c1doc))) :=
  c1_wellformed_document_parse c1doc (by decide) (fun _ _ => false)
    (fun _ _ => rfl)

end SimpleJson
